import Mathlib

/-!
Verification of the mqtt-smarthome subscription/event-routing core.

The development shallowly embeds the Rust sources (`subscriptions.rs`,
`payload.rs`, `history_entry.rs`, `watcher.rs`, `lib.rs`).  Code from
external collaborator crates (the broker client's topic matcher and
filter validator, the floating-point parser of the standard library,
UTF-8 decoding, and the bounded channels) is not part of the repository;
those parts are modelled from the specification, as indicated in their
doc comments.  Machine timestamps are modelled as natural numbers passed
explicitly; strings are Lean strings, with splitting implemented by
structural recursion over the character list so that all definitions are
executable by the kernel.
-/

/-! ## Topic and filter segmentation -/

/-- Splits a character list at every occurrence of the separator.
Mirrors Rust's `str::split(sep)`: consecutive separators produce empty
pieces and the empty input yields one empty piece. -/
def splitChar (sep : Char) : List Char → List (List Char)
  | [] => [[]]
  | c :: cs =>
    let r := splitChar sep cs
    if c = sep then [] :: r
    else
      match r with
      | [] => [[c]]
      | h :: t => (c :: h) :: t

/-- Segments of a topic or filter string: the pieces obtained by
splitting on the slash character. -/
def segs (s : String) : List String := (splitChar '/' s.toList).map String.mk

/-- Modelled from the spec: a segment of a concrete topic carries no
wildcard character, neither the multi-level wildcard nor the
single-level one (section 3: "Topic must not have a `#`/`+`; only
filters do"). -/
def cleanSeg (s : String) : Bool :=
  !(s.toList.any (· = '#')) && !(s.toList.any (· = '+'))

theorem cleanSeg_ne_hash {s : String} (h : cleanSeg s = true) : s ≠ "#" := by
  intro e
  subst e
  exact absurd h (by decide)

theorem cleanSeg_ne_plus {s : String} (h : cleanSeg s = true) : s ≠ "+" := by
  intro e
  subst e
  exact absurd h (by decide)

/-! ## Filter matcher -/

/-- Modelled from the spec: the Filter Matcher of section 4.1, which in
the source is the broker client's `matches(topic, filter)` (called as
`rumqttc::matches` by `subscriptions.rs` and `watcher.rs`, also
filter-against-filter as described in section 4.2).  Both strings are
split on `/` and the segment lists are walked pairwise: a `#` filter
segment accepts all remaining segments (zero or more), `+` accepts any
single topic segment, a literal filter segment must equal the topic
segment exactly, and when the filter is exhausted the topic must be
too. -/
def matchesSegs : List String → List String → Bool
  | ts, [] => ts.isEmpty
  | ts, f :: fs =>
    if f == "#" then true
    else
      match ts with
      | [] => false
      | t :: ts' =>
        if f == "+" || f == t then matchesSegs ts' fs
        else false

/-- Matching on whole strings: split both sides on `/` and compare the
segment lists. -/
def matchesStr (topic filter : String) : Bool :=
  matchesSegs (segs topic) (segs filter)

theorem matchesSegs_self : ∀ ss : List String, matchesSegs ss ss = true := by
  intro ss
  induction ss with
  | nil => rfl
  | cons s rest ih =>
    by_cases h : s == "#"
    · simp [matchesSegs, h]
    · simp [matchesSegs, h, ih]

theorem matchesStr_self (f : String) : matchesStr f f = true :=
  matchesSegs_self _

/-- A filter whose segment list begins with the multi-level wildcard
matches every topic. -/
theorem matchesSegs_hash_head (ts fs : List String) :
    matchesSegs ts ("#" :: fs) = true := by
  unfold matchesSegs
  simp

/-! ## Filter validity -/

/-- Modelled from the spec: structural validity of a filter (section 3):
the multi-level wildcard `#` may appear at most once and only as the
final segment, and neither wildcard may appear fused with other
characters inside a segment. -/
def validSegs : List String → Bool
  | [] => false
  | [s] => s == "#" || s == "+" || cleanSeg s
  | s :: rest => (s == "+" || cleanSeg s) && validSegs rest

/-- Modelled from the spec: filter validity on strings; a filter is a
string of one or more segments (the empty string is not a filter)
subject to the structural wildcard constraints. -/
def validFilter (f : String) : Bool :=
  !f.isEmpty && validSegs (segs f)

/-! ## Semantic topic coverage -/

/-- Wellformedness of a topic's segment list: at least one segment and
no wildcard character in any segment. -/
def TopicSegsOk (ts : List String) : Prop :=
  ts ≠ [] ∧ ∀ s ∈ ts, cleanSeg s = true

/-- Filter `a` covers filter `b`: every concrete topic matching `b` also
matches `a` (spec glossary: "filter A covers filter B if every topic
matching B also matches A").  Topics are taken by their segment lists. -/
def Covers (a b : String) : Prop :=
  ∀ ts : List String, TopicSegsOk ts →
    matchesSegs ts (segs b) = true → matchesSegs ts (segs a) = true

/-! ## Subscription set -/

/-- The subscription store of `subscriptions.rs`: a `HashSet<String>` of
filters, modelled as a finite set of strings. -/
structure Subscriptions where
  filters : Finset String
deriving DecidableEq

/-- The empty subscription set (`Subscriptions::new`). -/
def Subscriptions.new : Subscriptions := ⟨∅⟩

/-- Embedding of `Subscriptions::add`: if any existing filter matches
the new filter (the new filter read as a topic), nothing happens and
`false` is returned; otherwise every existing filter matched by the new
filter is dropped, the new filter is inserted, and the hash-set insert's
"newly added" result is returned. -/
def Subscriptions.add (s : Subscriptions) (filter : String) : Bool × Subscriptions :=
  if ∃ e ∈ s.filters, matchesStr filter e = true then (false, s)
  else
    let kept := s.filters.filter fun e => matchesStr e filter = false
    (decide (filter ∉ kept), ⟨insert filter kept⟩)

/-- Folding `add` over a list of filters, starting from the empty set;
the reachable subscription-set states are exactly the results of such
folds. -/
def Subscriptions.addList (l : List String) : Subscriptions :=
  l.foldl (fun s f => (s.add f).2) Subscriptions.new

/-! ## Basic matcher lemmas -/

theorem matchesSegs_nil_nil : matchesSegs [] [] = true := rfl

theorem matchesSegs_cons_nil (t : String) (ts : List String) :
    matchesSegs (t :: ts) [] = false := rfl

theorem matchesSegs_nil_cons (f : String) (fs : List String)
    (hf : (f == "#") = false) : matchesSegs [] (f :: fs) = false := by
  simp [matchesSegs, hf]

theorem matchesSegs_cons_cons (t f : String) (ts fs : List String)
    (hf : (f == "#") = false) :
    matchesSegs (t :: ts) (f :: fs) = ((f == "+" || f == t) && matchesSegs ts fs) := by
  by_cases h : (f == "+" || f == t) = true
  · simp [matchesSegs, hf, h]
  · have h' : (f == "+" || f == t) = false := Bool.eq_false_iff.mpr h
    simp [matchesSegs, hf, h']

/-! ## Validity helper lemmas -/

theorem validSegs_singleton {s : String} (h : validSegs [s] = true) :
    s = "#" ∨ s = "+" ∨ cleanSeg s = true := by
  simp only [validSegs, Bool.or_eq_true, beq_iff_eq] at h
  tauto

theorem validSegs_cons_tail {s : String} {rest : List String}
    (h : validSegs (s :: rest) = true) (hne : rest ≠ []) : validSegs rest = true := by
  cases rest with
  | nil => exact absurd rfl hne
  | cons c cs =>
    simp only [validSegs, Bool.and_eq_true] at h
    exact h.2

theorem validSegs_cons_head {s : String} {rest : List String}
    (h : validSegs (s :: rest) = true) (hne : rest ≠ []) :
    s = "+" ∨ cleanSeg s = true := by
  cases rest with
  | nil => exact absurd rfl hne
  | cons c cs =>
    simp only [validSegs, Bool.and_eq_true, Bool.or_eq_true, beq_iff_eq] at h
    exact h.1

theorem head_ne_hash {s : String} (h : s = "+" ∨ cleanSeg s = true) : (s == "#") = false := by
  rcases h with h | h
  · subst h; decide
  · simp [cleanSeg_ne_hash h]

/-! ## Canonical topics of a filter -/

/-- A representative topic of a filter: each wildcard segment is
replaced by the literal segment `x`. -/
def canonTopic (fs : List String) : List String :=
  fs.map fun s => if s == "+" || s == "#" then "x" else s

theorem canonTopic_clean : ∀ {fs : List String}, validSegs fs = true →
    ∀ s ∈ canonTopic fs, cleanSeg s = true := by
  intro fs
  induction fs with
  | nil => intro _ s hs; simp [canonTopic] at hs
  | cons a rest ih =>
    intro h s hs
    have hhead : a = "#" ∨ a = "+" ∨ cleanSeg a = true := by
      cases rest with
      | nil => exact validSegs_singleton h
      | cons c cs =>
        rcases validSegs_cons_head h (by simp) with h' | h'
        · exact Or.inr (Or.inl h')
        · exact Or.inr (Or.inr h')
    simp only [canonTopic, List.map_cons, List.mem_cons] at hs
    rcases hs with hs | hs
    · subst hs
      rcases hhead with h' | h' | h'
      · subst h'; decide
      · subst h'; decide
      · simp [cleanSeg_ne_hash h', cleanSeg_ne_plus h', h']
    · cases rest with
      | nil => simp [canonTopic] at hs
      | cons c cs =>
        exact ih (validSegs_cons_tail h (by simp)) s (by simpa [canonTopic] using hs)

theorem canonTopic_matches : ∀ {fs : List String}, validSegs fs = true →
    matchesSegs (canonTopic fs) fs = true := by
  intro fs
  induction fs with
  | nil => intro h; simp [validSegs] at h
  | cons a rest ih =>
    intro h
    by_cases ha : a = "#"
    · subst ha; exact matchesSegs_hash_head _ _
    · have hhead : a = "+" ∨ cleanSeg a = true := by
        cases rest with
        | nil =>
          rcases validSegs_singleton h with h' | h' | h'
          · exact absurd h' ha
          · exact Or.inl h'
          · exact Or.inr h'
        | cons c cs => exact validSegs_cons_head h (by simp)
      have htail : matchesSegs (canonTopic rest) rest = true := by
        cases rest with
        | nil => rfl
        | cons c cs => exact ih (validSegs_cons_tail h (by simp))
      have ha' : (a == "#") = false := by simp [ha]
      by_cases hp : a = "+"
      · subst hp
        have : canonTopic ("+" :: rest) = "x" :: canonTopic rest := by simp [canonTopic]
        rw [this, matchesSegs_cons_cons "x" "+" (canonTopic rest) rest (by decide)]
        simp [htail]
      · have hclean : cleanSeg a = true := by tauto
        have : canonTopic (a :: rest) = a :: canonTopic rest := by
          simp [canonTopic, hp, ha]
        rw [this, matchesSegs_cons_cons a a (canonTopic rest) rest ha']
        simp [htail]

theorem canonTopic_ne_nil {fs : List String} (h : fs ≠ []) : canonTopic fs ≠ [] := by
  cases fs with
  | nil => exact absurd rfl h
  | cons a rest => simp [canonTopic]

/-! ## Coverage implies filter-against-filter matching -/

/-- Completeness of the filter-against-filter check over possibly-empty
clean topics: if every clean segment list matching `bs` also matches
`fa`, then `bs` read as a topic matches `fa`. -/
theorem covers_to_syn : ∀ (bs fa : List String), validSegs bs = true → validSegs fa = true →
    (∀ ts, (∀ s ∈ ts, cleanSeg s = true) → matchesSegs ts bs = true → matchesSegs ts fa = true) →
    matchesSegs bs fa = true := by
  intro bs
  induction bs with
  | nil => intro fa hb _ _; simp [validSegs] at hb
  | cons b bs' ih =>
    intro fa hb ha hc
    by_cases hbs' : bs' = []
    · subst hbs'
      rcases validSegs_singleton hb with h | h | h
      · subst h
        have h0 : matchesSegs [] fa = true := hc [] (by simp) (matchesSegs_hash_head [] [])
        cases fa with
        | nil => simp [validSegs] at ha
        | cons a fa' =>
          by_cases haa : a = "#"
          · subst haa; exact matchesSegs_hash_head _ _
          · rw [matchesSegs_nil_cons a fa' (by simp [haa])] at h0
            exact absurd h0 (by simp)
      · subst h
        have m1 : matchesSegs ["x"] fa = true := hc ["x"] (by decide) (by decide)
        have m2 : matchesSegs ["y"] fa = true := hc ["y"] (by decide) (by decide)
        cases fa with
        | nil => simp [matchesSegs_cons_nil] at m1
        | cons a fa' =>
          by_cases haa : a = "#"
          · subst haa; exact matchesSegs_hash_head _ _
          · have ha' : (a == "#") = false := by simp [haa]
            rw [matchesSegs_cons_cons "x" a [] fa' ha'] at m1
            rw [matchesSegs_cons_cons "y" a [] fa' ha'] at m2
            simp only [Bool.and_eq_true, Bool.or_eq_true, beq_iff_eq] at m1 m2
            have haplus : a = "+" := by
              rcases m1.1 with h | h
              · exact h
              · rcases m2.1 with h' | h'
                · exact h'
                · exact absurd (h.symm.trans h') (by decide)
            subst haplus
            rw [matchesSegs_cons_cons "+" "+" [] fa' (by decide)]
            simp only [Bool.and_eq_true, Bool.or_eq_true]
            exact ⟨Or.inl (by decide), m1.2⟩
      · exact hc [b] (by simp [h]) (matchesSegs_self [b])
    · have hhead : b = "+" ∨ cleanSeg b = true := validSegs_cons_head hb hbs'
      have htail : validSegs bs' = true := validSegs_cons_tail hb hbs'
      have hb' : (b == "#") = false := head_ne_hash hhead
      cases fa with
      | nil =>
        have hfull := hc _ (canonTopic_clean hb) (canonTopic_matches hb)
        revert hfull
        simp [canonTopic, matchesSegs_cons_nil]
      | cons a fa' =>
        by_cases haa : a = "#"
        · subst haa; exact matchesSegs_hash_head _ _
        · have ha' : (a == "#") = false := by simp [haa]
          obtain ⟨t0, ht0clean, hthead⟩ :
              ∃ t0, cleanSeg t0 = true ∧ (b == "+" || b == t0) = true := by
            rcases hhead with h | h
            · exact ⟨"x", by decide, by simp [h]⟩
            · exact ⟨b, h, by simp⟩
          have tailCovers : ∀ ts', (∀ s ∈ ts', cleanSeg s = true) →
              matchesSegs ts' bs' = true → matchesSegs ts' fa' = true := by
            intro ts' hcl hm
            have hmfull : matchesSegs (t0 :: ts') (b :: bs') = true := by
              rw [matchesSegs_cons_cons t0 b ts' bs' hb']
              simp [hthead, hm]
            have hres := hc (t0 :: ts')
              (by
                intro s hs
                rcases List.mem_cons.mp hs with h | h
                · subst h; exact ht0clean
                · exact hcl s h)
              hmfull
            rw [matchesSegs_cons_cons t0 a ts' fa' ha'] at hres
            simp only [Bool.and_eq_true] at hres
            exact hres.2
          have headA : (a == "+" || a == b) = true := by
            rcases hhead with hbp | hbc
            · subst hbp
              have hm1 : matchesSegs ("x" :: canonTopic bs') ("+" :: bs') = true := by
                rw [matchesSegs_cons_cons "x" "+" _ _ (by decide)]
                simp [canonTopic_matches htail]
              have hm2 : matchesSegs ("y" :: canonTopic bs') ("+" :: bs') = true := by
                rw [matchesSegs_cons_cons "y" "+" _ _ (by decide)]
                simp [canonTopic_matches htail]
              have hcl1 : ∀ s ∈ ("x" :: canonTopic bs'), cleanSeg s = true := by
                intro s hs
                rcases List.mem_cons.mp hs with h | h
                · subst h; decide
                · exact canonTopic_clean htail s h
              have hcl2 : ∀ s ∈ ("y" :: canonTopic bs'), cleanSeg s = true := by
                intro s hs
                rcases List.mem_cons.mp hs with h | h
                · subst h; decide
                · exact canonTopic_clean htail s h
              have r1 := hc _ hcl1 hm1
              have r2 := hc _ hcl2 hm2
              rw [matchesSegs_cons_cons "x" a _ _ ha'] at r1
              rw [matchesSegs_cons_cons "y" a _ _ ha'] at r2
              simp only [Bool.and_eq_true] at r1 r2
              have e1 := r1.1
              have e2 := r2.1
              simp only [Bool.or_eq_true, beq_iff_eq] at e1 e2 ⊢
              rcases e1 with h | h
              · exact Or.inl h
              · rcases e2 with h' | h'
                · exact Or.inl h'
                · exact absurd (h.symm.trans h') (by decide)
            · have hm1 : matchesSegs (b :: canonTopic bs') (b :: bs') = true := by
                rw [matchesSegs_cons_cons b b _ _ hb']
                simp [canonTopic_matches htail]
              have hcl1 : ∀ s ∈ (b :: canonTopic bs'), cleanSeg s = true := by
                intro s hs
                rcases List.mem_cons.mp hs with h | h
                · subst h; exact hbc
                · exact canonTopic_clean htail s h
              have r1 := hc _ hcl1 hm1
              rw [matchesSegs_cons_cons b a _ _ ha'] at r1
              simp only [Bool.and_eq_true] at r1
              exact r1.1
          by_cases hfa' : fa' = []
          · subst hfa'
            have hbad := tailCovers (canonTopic bs') (canonTopic_clean htail)
              (canonTopic_matches htail)
            cases hcn : canonTopic bs' with
            | nil => exact absurd hcn (canonTopic_ne_nil hbs')
            | cons c cs => rw [hcn] at hbad; simp [matchesSegs_cons_nil] at hbad
          · have hfav : validSegs fa' = true := validSegs_cons_tail ha hfa'
            have htailm : matchesSegs bs' fa' = true := ih fa' htail hfav tailCovers
            rw [matchesSegs_cons_cons b a bs' fa' ha']
            simp [headA, htailm]

/-- Over nonempty clean topics (genuine topics always have at least one
segment), coverage implies the filter-against-filter check: the covered
filter, read as a topic, matches the covering filter. -/
theorem covers_to_syn_main (bs fa : List String) (hb : validSegs bs = true)
    (ha : validSegs fa = true)
    (hc : ∀ ts, ts ≠ [] → (∀ s ∈ ts, cleanSeg s = true) →
      matchesSegs ts bs = true → matchesSegs ts fa = true) :
    matchesSegs bs fa = true := by
  cases bs with
  | nil => simp [validSegs] at hb
  | cons b bs' =>
    by_cases hbs' : bs' = []
    · subst hbs'
      rcases validSegs_singleton hb with h | h | h
      · subst h
        have m1 : matchesSegs ["x"] fa = true :=
          hc ["x"] (by simp) (by decide) (matchesSegs_hash_head _ _)
        have m2 : matchesSegs ["y"] fa = true :=
          hc ["y"] (by simp) (by decide) (matchesSegs_hash_head _ _)
        have m3 : matchesSegs ["x", "x"] fa = true :=
          hc ["x", "x"] (by simp) (by decide) (matchesSegs_hash_head _ _)
        cases fa with
        | nil => simp [matchesSegs_cons_nil] at m1
        | cons a fa' =>
          by_cases haa : a = "#"
          · subst haa; exact matchesSegs_hash_head _ _
          · have ha' : (a == "#") = false := by simp [haa]
            rw [matchesSegs_cons_cons "x" a [] fa' ha'] at m1
            rw [matchesSegs_cons_cons "y" a [] fa' ha'] at m2
            simp only [Bool.and_eq_true, Bool.or_eq_true, beq_iff_eq] at m1 m2
            have haplus : a = "+" := by
              rcases m1.1 with h | h
              · exact h
              · rcases m2.1 with h' | h'
                · exact h'
                · exact absurd (h.symm.trans h') (by decide)
            subst haplus
            cases fa' with
            | nil =>
              rw [matchesSegs_cons_cons "x" "+" ["x"] [] (by decide)] at m3
              simp [matchesSegs_cons_nil] at m3
            | cons c fa'' =>
              have hm0 : matchesSegs [] (c :: fa'') = true := m1.2
              by_cases hcc : c = "#"
              · subst hcc
                rw [matchesSegs_cons_cons "#" "+" [] ("#" :: fa'') (by decide)]
                simp [matchesSegs_hash_head]
              · rw [matchesSegs_nil_cons c fa'' (by simp [hcc])] at hm0
                exact absurd hm0 (by simp)
      · subst h
        have m1 : matchesSegs ["x"] fa = true := hc ["x"] (by simp) (by decide) (by decide)
        have m2 : matchesSegs ["y"] fa = true := hc ["y"] (by simp) (by decide) (by decide)
        cases fa with
        | nil => simp [matchesSegs_cons_nil] at m1
        | cons a fa' =>
          by_cases haa : a = "#"
          · subst haa; exact matchesSegs_hash_head _ _
          · have ha' : (a == "#") = false := by simp [haa]
            rw [matchesSegs_cons_cons "x" a [] fa' ha'] at m1
            rw [matchesSegs_cons_cons "y" a [] fa' ha'] at m2
            simp only [Bool.and_eq_true, Bool.or_eq_true, beq_iff_eq] at m1 m2
            have haplus : a = "+" := by
              rcases m1.1 with h | h
              · exact h
              · rcases m2.1 with h' | h'
                · exact h'
                · exact absurd (h.symm.trans h') (by decide)
            subst haplus
            rw [matchesSegs_cons_cons "+" "+" [] fa' (by decide)]
            simp only [Bool.and_eq_true, Bool.or_eq_true]
            exact ⟨Or.inl (by decide), m1.2⟩
      · exact hc [b] (by simp) (by simp [h]) (matchesSegs_self [b])
    · have hhead : b = "+" ∨ cleanSeg b = true := validSegs_cons_head hb hbs'
      have htail : validSegs bs' = true := validSegs_cons_tail hb hbs'
      have hb' : (b == "#") = false := head_ne_hash hhead
      cases fa with
      | nil =>
        have hfull := hc _ (by simp [canonTopic]) (canonTopic_clean hb) (canonTopic_matches hb)
        revert hfull
        simp [canonTopic, matchesSegs_cons_nil]
      | cons a fa' =>
        by_cases haa : a = "#"
        · subst haa; exact matchesSegs_hash_head _ _
        · have ha' : (a == "#") = false := by simp [haa]
          obtain ⟨t0, ht0clean, hthead⟩ :
              ∃ t0, cleanSeg t0 = true ∧ (b == "+" || b == t0) = true := by
            rcases hhead with h | h
            · exact ⟨"x", by decide, by simp [h]⟩
            · exact ⟨b, h, by simp⟩
          have tailCovers : ∀ ts', (∀ s ∈ ts', cleanSeg s = true) →
              matchesSegs ts' bs' = true → matchesSegs ts' fa' = true := by
            intro ts' hcl hm
            have hmfull : matchesSegs (t0 :: ts') (b :: bs') = true := by
              rw [matchesSegs_cons_cons t0 b ts' bs' hb']
              simp [hthead, hm]
            have hres := hc (t0 :: ts') (by simp)
              (by
                intro s hs
                rcases List.mem_cons.mp hs with h | h
                · subst h; exact ht0clean
                · exact hcl s h)
              hmfull
            rw [matchesSegs_cons_cons t0 a ts' fa' ha'] at hres
            simp only [Bool.and_eq_true] at hres
            exact hres.2
          have headA : (a == "+" || a == b) = true := by
            rcases hhead with hbp | hbc
            · subst hbp
              have hm1 : matchesSegs ("x" :: canonTopic bs') ("+" :: bs') = true := by
                rw [matchesSegs_cons_cons "x" "+" _ _ (by decide)]
                simp [canonTopic_matches htail]
              have hm2 : matchesSegs ("y" :: canonTopic bs') ("+" :: bs') = true := by
                rw [matchesSegs_cons_cons "y" "+" _ _ (by decide)]
                simp [canonTopic_matches htail]
              have hcl1 : ∀ s ∈ ("x" :: canonTopic bs'), cleanSeg s = true := by
                intro s hs
                rcases List.mem_cons.mp hs with h | h
                · subst h; decide
                · exact canonTopic_clean htail s h
              have hcl2 : ∀ s ∈ ("y" :: canonTopic bs'), cleanSeg s = true := by
                intro s hs
                rcases List.mem_cons.mp hs with h | h
                · subst h; decide
                · exact canonTopic_clean htail s h
              have r1 := hc _ (by simp) hcl1 hm1
              have r2 := hc _ (by simp) hcl2 hm2
              rw [matchesSegs_cons_cons "x" a _ _ ha'] at r1
              rw [matchesSegs_cons_cons "y" a _ _ ha'] at r2
              simp only [Bool.and_eq_true] at r1 r2
              have e1 := r1.1
              have e2 := r2.1
              simp only [Bool.or_eq_true, beq_iff_eq] at e1 e2 ⊢
              rcases e1 with h | h
              · exact Or.inl h
              · rcases e2 with h' | h'
                · exact Or.inl h'
                · exact absurd (h.symm.trans h') (by decide)
            · have hm1 : matchesSegs (b :: canonTopic bs') (b :: bs') = true := by
                rw [matchesSegs_cons_cons b b _ _ hb']
                simp [canonTopic_matches htail]
              have hcl1 : ∀ s ∈ (b :: canonTopic bs'), cleanSeg s = true := by
                intro s hs
                rcases List.mem_cons.mp hs with h | h
                · subst h; exact hbc
                · exact canonTopic_clean htail s h
              have r1 := hc _ (by simp) hcl1 hm1
              rw [matchesSegs_cons_cons b a _ _ ha'] at r1
              simp only [Bool.and_eq_true] at r1
              exact r1.1
          by_cases hfa' : fa' = []
          · subst hfa'
            have hbad := tailCovers (canonTopic bs') (canonTopic_clean htail)
              (canonTopic_matches htail)
            cases hcn : canonTopic bs' with
            | nil => exact absurd hcn (canonTopic_ne_nil hbs')
            | cons c cs => rw [hcn] at hbad; simp [matchesSegs_cons_nil] at hbad
          · have hfav : validSegs fa' = true := validSegs_cons_tail ha hfa'
            have htailm : matchesSegs bs' fa' = true :=
              covers_to_syn bs' fa' htail hfav tailCovers
            rw [matchesSegs_cons_cons b a bs' fa' ha']
            simp [headA, htailm]

/-- String-level completeness for valid filters: if `a` semantically
covers `b`, then `b` read as a topic passes the filter-against-filter
check against `a` — so whatever the code decides from that check is at
least decided for every genuinely covered filter. -/
theorem covers_to_matches {a b : String} (ha : validFilter a = true)
    (hb : validFilter b = true) (hc : Covers a b) : matchesStr b a = true := by
  simp only [validFilter, Bool.and_eq_true] at ha hb
  exact covers_to_syn_main (segs b) (segs a) hb.2 ha.2
    (fun ts hne hcl hm => hc ts ⟨hne, hcl⟩ hm)

/-! ## Behaviour of add -/

theorem add_of_covered {s : Subscriptions} {f : String}
    (h : ∃ e ∈ s.filters, matchesStr f e = true) : s.add f = (false, s) := by
  simp [Subscriptions.add, h]

theorem add_not_mem_kept {s : Subscriptions} {f : String}
    (h : ¬∃ e ∈ s.filters, matchesStr f e = true) :
    f ∉ s.filters.filter fun e => matchesStr e f = false := by
  intro hmem
  exact h ⟨f, (Finset.mem_filter.mp hmem).1, matchesStr_self f⟩

theorem add_of_not_covered {s : Subscriptions} {f : String}
    (h : ¬∃ e ∈ s.filters, matchesStr f e = true) :
    s.add f = (true, ⟨insert f (s.filters.filter fun e => matchesStr e f = false)⟩) := by
  simp only [Subscriptions.add, h, if_false]
  simp [add_not_mem_kept h]

/-- Syntactic antichain: no two distinct filters of the set are in the
filter-against-filter matching relation. -/
def SynAntichain (S : Finset String) : Prop :=
  ∀ a ∈ S, ∀ b ∈ S, a ≠ b → matchesStr a b = false

theorem add_preserves_antichain {s : Subscriptions} {f : String}
    (h : SynAntichain s.filters) : SynAntichain (s.add f).2.filters := by
  by_cases hcov : ∃ e ∈ s.filters, matchesStr f e = true
  · rw [add_of_covered hcov]
    exact h
  · rw [add_of_not_covered hcov]
    intro a ha b hb hne
    simp only [Finset.mem_insert, Finset.mem_filter] at ha hb
    push_neg at hcov
    rcases ha with ha | ha
    · rcases hb with hb | hb
      · exact absurd (ha.trans hb.symm) hne
      · subst ha
        exact Bool.eq_false_iff.mpr fun hm => absurd hm (by simp [hcov b hb.1])
    · rcases hb with hb | hb
      · subst hb
        exact ha.2
      · exact h a ha.1 b hb.1 hne

theorem add_preserves_valid {s : Subscriptions} {f : String}
    (hf : validFilter f = true) (h : ∀ x ∈ s.filters, validFilter x = true) :
    ∀ x ∈ (s.add f).2.filters, validFilter x = true := by
  by_cases hcov : ∃ e ∈ s.filters, matchesStr f e = true
  · rw [add_of_covered hcov]
    exact h
  · rw [add_of_not_covered hcov]
    intro x hx
    simp only [Finset.mem_insert, Finset.mem_filter] at hx
    rcases hx with hx | hx
    · subst hx; exact hf
    · exact h x hx.1

theorem addList_antichain (l : List String) :
    SynAntichain (Subscriptions.addList l).filters := by
  suffices h : ∀ s : Subscriptions, SynAntichain s.filters →
      SynAntichain (l.foldl (fun s f => (s.add f).2) s).filters by
    exact h Subscriptions.new (by intro a ha; simp [Subscriptions.new] at ha)
  induction l with
  | nil => intro s hs; exact hs
  | cons f rest ih =>
    intro s hs
    exact ih _ (add_preserves_antichain hs)

theorem addList_valid (l : List String) (hl : ∀ f ∈ l, validFilter f = true) :
    ∀ x ∈ (Subscriptions.addList l).filters, validFilter x = true := by
  suffices h : ∀ s : Subscriptions, (∀ x ∈ s.filters, validFilter x = true) →
      ∀ x ∈ (l.foldl (fun s f => (s.add f).2) s).filters, validFilter x = true by
    exact h Subscriptions.new (by intro x hx; simp [Subscriptions.new] at hx)
  induction l with
  | nil => intro s hs; exact hs
  | cons f rest ih =>
    intro s hs
    exact ih (fun g hg => hl g (List.mem_cons_of_mem f hg))
      _ (add_preserves_valid (hl f (List.mem_cons_self f rest)) hs)

/-! ## Claim C1 -/

/-- C1 counterexample: on the reachable state whose only subscription is
`+/+`, no filter in the set covers `+/+`'s successor candidate `+/#`
(the three-segment topic `x/x/x` matches `+/#` but not `+/+`), so the
claim requires add to remove the existing filter `+/+` — which `+/#`
does cover — insert `+/#` and return true; the code instead returns
false and leaves the set unchanged, because `+/#` read as a topic
passes the filter-against-filter check against `+/+`. -/
theorem c1_add_counterexample :
    validFilter "+/+" = true ∧ validFilter "+/#" = true ∧
    (Subscriptions.new.add "+/+").2.filters = {"+/+"} ∧
    (∀ e ∈ (Subscriptions.new.add "+/+").2.filters, ¬Covers e "+/#") ∧
    Covers "+/#" "+/+" ∧
    ((Subscriptions.new.add "+/+").2.add "+/#").1 = false ∧
    ((Subscriptions.new.add "+/+").2.add "+/#").2 = (Subscriptions.new.add "+/+").2 := by
  refine ⟨by decide, by decide, by decide, ?_, ?_, by decide, by decide⟩
  · intro e he hcov
    have hset : (Subscriptions.new.add "+/+").2.filters = {"+/+"} := by decide
    rw [hset] at he
    have he' : e = "+/+" := by simpa using he
    subst he'
    have hbad := hcov ["x", "x", "x"] ⟨by simp, by decide⟩ (by decide)
    exact absurd hbad (by decide)
  · intro ts hok _hm
    obtain ⟨hne, _hclean⟩ := hok
    have hsegs : segs "+/#" = ["+", "#"] := by decide
    rw [hsegs]
    cases ts with
    | nil => exact absurd rfl hne
    | cons t1 ts' =>
      rw [matchesSegs_cons_cons t1 "+" ts' ["#"] (by decide)]
      simp [matchesSegs_hash_head]

/-- C1 (amended): `add f` returns false and leaves the set unchanged
exactly when some existing filter matches `f` itself read as a topic
(the filter-against-filter check of section 4.2).  Whenever some
existing valid filter semantically covers `f`, that check necessarily
succeeds, so genuine coverage still forces the false/unchanged outcome;
but the check can also succeed without semantic coverage (see the
counterexample), so the claimed equivalence holds in that direction
only.  When no existing filter passes the check, `add` removes exactly
the existing filters whose pattern, read as a topic, matches `f`,
inserts `f`, and returns true. -/
theorem c1_add_amended (s : Subscriptions) (f : String) :
    (((s.add f).1 = false ∧ (s.add f).2 = s) ↔ ∃ e ∈ s.filters, matchesStr f e = true) ∧
    (validFilter f = true → (∀ x ∈ s.filters, validFilter x = true) →
      (∃ e ∈ s.filters, Covers e f) → (s.add f).1 = false ∧ (s.add f).2 = s) ∧
    ((∀ e ∈ s.filters, matchesStr f e = false) →
      (s.add f).1 = true ∧
      (s.add f).2.filters = insert f (s.filters.filter fun e => matchesStr e f = false)) := by
  have hiff : ((s.add f).1 = false ∧ (s.add f).2 = s) ↔
      ∃ e ∈ s.filters, matchesStr f e = true := by
    constructor
    · intro ⟨h1, _h2⟩
      by_cases hcov : ∃ e ∈ s.filters, matchesStr f e = true
      · exact hcov
      · rw [add_of_not_covered hcov] at h1
        exact absurd h1 (by simp)
    · intro hcov
      rw [add_of_covered hcov]
      exact ⟨rfl, rfl⟩
  refine ⟨hiff, ?_, ?_⟩
  · rintro hf hall ⟨e, he, hcov⟩
    exact hiff.mpr ⟨e, he, covers_to_matches (hall e he) hf hcov⟩
  · intro hall
    have hcov : ¬∃ e ∈ s.filters, matchesStr f e = true := by
      rintro ⟨e, he, hm⟩
      rw [hall e he] at hm
      exact absurd hm (by simp)
    rw [add_of_not_covered hcov]
    exact ⟨rfl, rfl⟩

/-- C1 amended witness: on the reachable state holding only `foo/+`,
which semantically covers `foo/bar`, adding `foo/bar` returns false and
leaves the state unchanged. -/
theorem c1_add_amended_witness :
    ((Subscriptions.addList ["foo/+"]).add "foo/bar").1 = false ∧
    ((Subscriptions.addList ["foo/+"]).add "foo/bar").2 = Subscriptions.addList ["foo/+"] :=
  (c1_add_amended (Subscriptions.addList ["foo/+"]) "foo/bar").2.1 (by decide) (by decide)
    ⟨"foo/+", by decide, by
      intro ts hok hm
      obtain ⟨hne, _hclean⟩ := hok
      have hsegs1 : segs "foo/bar" = ["foo", "bar"] := by decide
      have hsegs2 : segs "foo/+" = ["foo", "+"] := by decide
      rw [hsegs1] at hm
      rw [hsegs2]
      cases ts with
      | nil => exact absurd rfl hne
      | cons t1 ts' =>
        rw [matchesSegs_cons_cons t1 "foo" ts' ["bar"] (by decide)] at hm
        simp only [Bool.and_eq_true, Bool.or_eq_true, beq_iff_eq] at hm
        obtain ⟨h1, hm⟩ := hm
        have ht1 : t1 = "foo" := by
          rcases h1 with h | h
          · exact absurd h (by decide)
          · exact h.symm
        cases ts' with
        | nil =>
          rw [matchesSegs_nil_cons "bar" [] (by decide)] at hm
          exact absurd hm (by simp)
        | cons t2 ts'' =>
          rw [matchesSegs_cons_cons t2 "bar" ts'' [] (by decide)] at hm
          simp only [Bool.and_eq_true, Bool.or_eq_true, beq_iff_eq] at hm
          obtain ⟨_h2, hm⟩ := hm
          subst ht1
          rw [matchesSegs_cons_cons "foo" "foo" (t2 :: ts'') ["+"] (by decide)]
          rw [matchesSegs_cons_cons t2 "+" ts'' [] (by decide)]
          simp only [Bool.and_eq_true, Bool.or_eq_true, beq_iff_eq]
          exact ⟨by simp, by simp, hm⟩⟩

/-! ## Claim C2 -/

/-- C2: after any sequence of add operations on valid filters starting
from the empty subscription set, no filter in the resulting set covers
another: for distinct members A and B, A does not match every topic B
matches. -/
theorem c2_no_mutual_cover (l : List String) (hl : ∀ f ∈ l, validFilter f = true) :
    ∀ a ∈ (Subscriptions.addList l).filters, ∀ b ∈ (Subscriptions.addList l).filters,
      a ≠ b → ¬Covers a b := by
  intro a ha b hb hne hcov
  have hanti := addList_antichain l
  have hva := addList_valid l hl a ha
  have hvb := addList_valid l hl b hb
  have h := covers_to_matches hva hvb hcov
  rw [hanti b hb a ha (Ne.symm hne)] at h
  exact absurd h (by simp)

/-- C2 witness: the concrete reachable set obtained by adding `foo/+`
and `bar/#` holds both filters and neither covers the other. -/
theorem c2_no_mutual_cover_witness :
    "foo/+" ∈ (Subscriptions.addList ["foo/+", "bar/#"]).filters ∧
    "bar/#" ∈ (Subscriptions.addList ["foo/+", "bar/#"]).filters ∧
    ¬Covers "foo/+" "bar/#" :=
  ⟨by decide, by decide,
    c2_no_mutual_cover ["foo/+", "bar/#"] (by decide) "foo/+" (by decide)
      "bar/#" (by decide) (by decide)⟩

/-! ## Payload interpretation -/

/-- Embedding of `payload::is_true`: the first component is the returned
boolean, the second records whether the warning branch for unrecognised
payloads was taken (the source prints a warning there). -/
def is_true (payload : String) : Bool × Bool :=
  if payload ∈ (["true", "True", "TRUE", "on", "On", "ON",
      "online", "Online", "ONLINE", "1", "2"] : List String) then (true, false)
  else if payload ∈ (["false", "False", "FALSE", "off", "Off", "OFF",
      "offline", "Offline", "OFFLINE", "0"] : List String) then (false, false)
  else (true, true)

/-- Splits a character list at every character satisfying the predicate,
mirroring Rust's `str::split` with a character-class pattern. -/
def splitPred (p : Char → Bool) : List Char → List (List Char)
  | [] => [[]]
  | c :: cs =>
    let r := splitPred p cs
    if p c then [] :: r
    else
      match r with
      | [] => [[c]]
      | h :: t => (c :: h) :: t

/-- First non-empty whitespace-separated token of a payload, as used by
both float accessors (`split(char::is_whitespace).find(|s| !s.is_empty())`).
Whitespace is modelled by the ASCII whitespace characters. -/
def firstToken (payload : String) : Option String :=
  ((splitPred Char.isWhitespace payload.toList).map String.mk).find? fun s => !s.isEmpty

/-- Modelled from the spec: the result of the external floating-point
parse, kept abstract as either a finite value (an exact decimal
`mantissa * 10 ^ exp10`, ignoring IEEE rounding and overflow), a signed
infinity, or not-a-number. -/
inductive F32 where
  | finite (mantissa : Int) (exp10 : Int)
  | inf (neg : Bool)
  | nan
deriving DecidableEq

/-- Finiteness test on parse results (`f32::is_finite`). -/
def F32.isFinite : F32 → Bool
  | .finite _ _ => true
  | _ => false

/-- ASCII lower-casing of one character. -/
def toLowerAscii (c : Char) : Char :=
  if 'A' ≤ c ∧ c ≤ 'Z' then Char.ofNat (c.toNat + 32) else c

/-- Value of a digit string. -/
def digitsVal (cs : List Char) : Nat :=
  cs.foldl (fun a c => a * 10 + (c.toNat - 48)) 0

/-- Strips one optional leading sign, returning whether it was a minus. -/
def stripSign : List Char → Bool × List Char
  | '-' :: rest => (true, rest)
  | '+' :: rest => (false, rest)
  | cs => (false, cs)

/-- Splits at the first occurrence of the given character, if any. -/
def splitAtChar (c : Char) : List Char → Option (List Char × List Char)
  | [] => none
  | x :: xs =>
    if x = c then some ([], xs)
    else (splitAtChar c xs).map fun r => (x :: r.1, r.2)

/-- Parses the mantissa part: digits with an optional single decimal
point, at least one digit overall; returns the digits' value and the
number of fraction digits. -/
def parseMantissa (cs : List Char) : Option (Nat × Nat) :=
  match splitAtChar '.' cs with
  | none =>
    if cs ≠ [] ∧ cs.all Char.isDigit then some (digitsVal cs, 0) else none
  | some (ip, fp) =>
    if (ip ≠ [] ∨ fp ≠ []) ∧ ip.all Char.isDigit ∧ fp.all Char.isDigit then
      some (digitsVal (ip ++ fp), fp.length)
    else none

/-- Parses the exponent part after the letter e: an optional sign and at
least one digit. -/
def parseExpPart (cs : List Char) : Option Int :=
  let r := stripSign cs
  if r.2 ≠ [] ∧ r.2.all Char.isDigit then
    some (if r.1 then -(digitsVal r.2 : Int) else (digitsVal r.2 : Int))
  else none

/-- Applies a sign to an integer. -/
def applySign (neg : Bool) (n : Int) : Int := if neg then -n else n

/-- Modelled from the spec: the external `str::parse::<f32>` grammar —
an optional sign followed by `inf`, `infinity` or `nan` (ASCII
case-insensitive), or by decimal digits with an optional fraction and an
optional exponent.  Finite values are represented exactly; IEEE rounding
and overflow to infinity are not modelled. -/
def parseF32 (s : String) : Option F32 :=
  let cs := s.toList.map toLowerAscii
  let r := stripSign cs
  if r.2 = ['i', 'n', 'f'] ∨ r.2 = ['i', 'n', 'f', 'i', 'n', 'i', 't', 'y'] then
    some (.inf r.1)
  else if r.2 = ['n', 'a', 'n'] then some .nan
  else
    match splitAtChar 'e' r.2 with
    | none =>
      (parseMantissa r.2).map fun m => .finite (applySign r.1 m.1) (-(m.2 : Int))
    | some (mp, ep) =>
      match parseMantissa mp, parseExpPart ep with
      | some m, some ex => some (.finite (applySign r.1 m.1) (ex - m.2))
      | _, _ => none

/-- Embedding of `payload::as_f32`: first non-empty whitespace-separated
token, parsed, keeping only finite results. -/
def as_f32 (payload : String) : Option F32 :=
  (firstToken payload).bind fun tok => Option.filter F32.isFinite (parseF32 tok)

/-! ## History entries -/

/-- Embedding of `HistoryEntry`: reception timestamp and raw payload
text. -/
structure HistoryEntry where
  time : Nat
  payload : String
deriving DecidableEq

/-- Embedding of `HistoryEntry::ago`: elapsed time via
`duration_since(..).unwrap_or_default()`, so a timestamp in the future
yields the zero duration. -/
def HistoryEntry.ago (e : HistoryEntry) (now : Nat) : Nat :=
  if e.time ≤ now then now - e.time else 0

/-- Embedding of `HistoryEntry::as_boolean`, delegating to
`payload::is_true`. -/
def HistoryEntry.as_boolean (e : HistoryEntry) : Bool :=
  (is_true e.payload).1

/-- Embedding of `HistoryEntry::as_float`: first non-empty token parsed,
with no finiteness filter. -/
def HistoryEntry.as_float (e : HistoryEntry) : Option F32 :=
  (firstToken e.payload).bind parseF32

/-! ## History store and facade queries -/

/-- Lookup in the history map, modelled as an association list. -/
def histGet (h : List (String × HistoryEntry)) (topic : String) : Option HistoryEntry :=
  (h.find? fun p => p.1 == topic).map fun p => p.2

/-- Overwriting insert into the history map (`HashMap::insert`). -/
def histUpsert (h : List (String × HistoryEntry)) (topic : String)
    (e : HistoryEntry) : List (String × HistoryEntry) :=
  (topic, e) :: h.filter fun p => p.1 ≠ topic

/-- Embedding of `MqttSmarthome::last_as_float`: look the topic up and
interpret the stored payload with `HistoryEntry::as_float`. -/
def last_as_float (h : List (String × HistoryEntry)) (topic : String) : Option F32 :=
  (histGet h topic).bind HistoryEntry.as_float

/-- Embedding of `MqttSmarthome::since_last_received`:
`last_received.and_then(|t| t.elapsed().ok())`, where `elapsed` fails
exactly when the recorded time lies in the future. -/
def since_last_received (lastReceived : Option Nat) (now : Nat) : Option Nat :=
  lastReceived.bind fun t => if t ≤ now then some (now - t) else none

/-! ## Claim C5 -/

/-- C5 counterexample: the accessor `HistoryEntry::as_float` (and the
facade's `last_as_float` built on it) parses the payload without the
finiteness filter, so the payload `inf` yields positive infinity — a
non-finite result, contradicting the claim. -/
theorem c5_as_float_counterexample :
    HistoryEntry.as_float ⟨0, "inf"⟩ = some (F32.inf false) ∧
    F32.isFinite (F32.inf false) = false ∧
    last_as_float [("sensor", ⟨0, "inf"⟩)] "sensor" = some (F32.inf false) := by
  refine ⟨by decide, by decide, by decide⟩

/-- C5 (amended): both float accessors split the payload on whitespace
and parse the first non-empty token, yielding no value when there is no
token or the parse fails; the never-non-finite guarantee holds for
`payload::as_f32`, which filters with `is_finite`, but not for
`HistoryEntry::as_float` and `last_as_float`, which return the parsed
value unfiltered and can produce a non-finite result exactly where
`as_f32` would have dropped it. -/
theorem c5_as_float_amended (payload : String) (t : Nat) :
    (firstToken payload = none →
      as_f32 payload = none ∧ HistoryEntry.as_float ⟨t, payload⟩ = none) ∧
    (∀ tok, firstToken payload = some tok → parseF32 tok = none →
      as_f32 payload = none ∧ HistoryEntry.as_float ⟨t, payload⟩ = none) ∧
    (∀ tok, firstToken payload = some tok →
      HistoryEntry.as_float ⟨t, payload⟩ = parseF32 tok) ∧
    (∀ r, as_f32 payload = some r → F32.isFinite r = true) ∧
    (∀ r, HistoryEntry.as_float ⟨t, payload⟩ = some r →
      F32.isFinite r = true ∨ as_f32 payload = none) ∧
    (∀ hist e, histGet hist payload = some e →
      last_as_float hist payload = HistoryEntry.as_float e) := by
  refine ⟨?_, ?_, ?_, ?_, ?_, ?_⟩
  · intro h
    simp [as_f32, HistoryEntry.as_float, h]
  · intro tok h hp
    simp [as_f32, HistoryEntry.as_float, h, hp, Option.filter]
  · intro tok h
    simp [HistoryEntry.as_float, h]
  · intro r hr
    unfold as_f32 at hr
    cases hft : firstToken payload with
    | none => rw [hft] at hr; simp at hr
    | some tok =>
      rw [hft] at hr
      simp only [Option.some_bind] at hr
      cases hp : parseF32 tok with
      | none => rw [hp] at hr; simp [Option.filter] at hr
      | some v =>
        rw [hp] at hr
        by_cases hf : F32.isFinite v = true
        · simp only [Option.filter, hf, if_true] at hr
          cases hr
          exact hf
        · simp [Option.filter, hf] at hr
  · intro r hr
    unfold HistoryEntry.as_float at hr
    cases hft : firstToken payload with
    | none => rw [hft] at hr; simp at hr
    | some tok =>
      rw [hft] at hr
      simp only [Option.some_bind] at hr
      by_cases hf : F32.isFinite r = true
      · exact Or.inl hf
      · refine Or.inr ?_
        simp [as_f32, hft, hr, Option.filter, hf]
  · intro hist e he
    simp [last_as_float, he]

/-- C5 amended witness: for the payload `not-a-number`, whose first
token fails to parse, both accessors yield no value. -/
theorem c5_as_float_amended_witness :
    as_f32 "not-a-number" = none ∧
    HistoryEntry.as_float ⟨0, "not-a-number"⟩ = none :=
  (c5_as_float_amended "not-a-number" 0).2.1 "not-a-number" (by decide) (by decide)

/-! ## Claim C6 -/

/-- C6: the boolean accessor returns false exactly on the ten false-like
payloads, warns exactly on payloads outside the fixed vocabulary (and
then returns true), `HistoryEntry::as_boolean` delegates to it, and the
spec's three sample rows hold. -/
theorem c6_is_true_table (payload : String) (t : Nat) :
    ((is_true payload).1 = false ↔
      payload ∈ (["false", "False", "FALSE", "off", "Off", "OFF",
        "offline", "Offline", "OFFLINE", "0"] : List String)) ∧
    ((is_true payload).2 = true ↔
      (payload ∉ (["true", "True", "TRUE", "on", "On", "ON",
        "online", "Online", "ONLINE", "1", "2"] : List String) ∧
       payload ∉ (["false", "False", "FALSE", "off", "Off", "OFF",
        "offline", "Offline", "OFFLINE", "0"] : List String))) ∧
    ((is_true payload).2 = false → (is_true payload).1 = true →
      payload ∈ (["true", "True", "TRUE", "on", "On", "ON",
        "online", "Online", "ONLINE", "1", "2"] : List String)) ∧
    (HistoryEntry.as_boolean ⟨t, payload⟩ = (is_true payload).1) ∧
    is_true "on" = (true, false) ∧
    is_true "off" = (false, false) ∧
    is_true "unexpected" = (true, true) := by
  by_cases h1 : payload ∈ (["true", "True", "TRUE", "on", "On", "ON",
      "online", "Online", "ONLINE", "1", "2"] : List String)
  · have h2 : payload ∉ (["false", "False", "FALSE", "off", "Off", "OFF",
        "offline", "Offline", "OFFLINE", "0"] : List String) := by
      simp only [List.mem_cons, List.not_mem_nil, or_false] at h1
      rcases h1 with rfl | rfl | rfl | rfl | rfl | rfl | rfl | rfl | rfl | rfl | rfl <;> decide
    refine ⟨?_, ?_, ?_, by simp [HistoryEntry.as_boolean], by decide, by decide, by decide⟩
    · simp [is_true, h1, h2]
    · simp [is_true, h1, h2]
    · intro _ _; exact h1
  · by_cases h2 : payload ∈ (["false", "False", "FALSE", "off", "Off", "OFF",
        "offline", "Offline", "OFFLINE", "0"] : List String)
    · refine ⟨?_, ?_, ?_, by simp [HistoryEntry.as_boolean], by decide, by decide, by decide⟩
      · simp [is_true, h1, h2]
      · simp [is_true, h1, h2]
      · intro _ hcontra
        rw [is_true, if_neg h1, if_pos h2] at hcontra
        exact absurd hcontra (by simp)
    · refine ⟨?_, ?_, ?_, by simp [HistoryEntry.as_boolean], by decide, by decide, by decide⟩
      · simp [is_true, h1, h2]
      · simp [is_true, h1, h2]
      · intro hcontra _
        rw [is_true, if_neg h1, if_neg h2] at hcontra
        exact absurd hcontra (by simp)

/-! ## Claim C10 -/

/-- C10: elapsed-time queries are total under backwards clock movement —
when the recorded timestamp lies in the future of the current time,
`HistoryEntry::ago` returns the zero duration and
`since_last_received` returns no value. -/
theorem c10_clock_backwards (e : HistoryEntry) (now lr : Nat)
    (h1 : now < e.time) (h2 : now < lr) :
    HistoryEntry.ago e now = 0 ∧ since_last_received (some lr) now = none := by
  constructor
  · unfold HistoryEntry.ago
    rw [if_neg (by omega)]
  · unfold since_last_received
    simp only [Option.some_bind]
    rw [if_neg (by omega)]

/-- C10 witness: a concrete entry stamped at time 5 queried at time 0
yields zero elapsed time, and a last-received time of 7 queried at time
0 yields no value. -/
theorem c10_clock_backwards_witness :
    HistoryEntry.ago ⟨5, "42"⟩ 0 = 0 ∧ since_last_received (some 7) 0 = none :=
  c10_clock_backwards ⟨5, "42"⟩ 0 7 (by decide) (by decide)

/-! ## Watchers and their bounded sinks -/

/-- Embedding of `Watcher` (watcher.rs): retained policy, filter, and
the sink channel's state — tokio's bounded mpsc sender modelled by its
queue, its capacity, and whether the receiving end is gone. -/
structure Watcher where
  allowRetained : Bool
  filter : String
  closed : Bool
  capacity : Nat
  queued : List (String × String)
deriving DecidableEq

/-- Embedding of `Watcher::new` (watcher.rs): asserts validity of the
filter (the assertion failure is modelled as `none`) and otherwise
returns a fresh watcher with an empty bounded channel of capacity 10.
The validity check is the broker client's `valid_filter`, modelled from
the spec by `validFilter`. -/
def Watcher.new (mqttTopicFilter : String) (allowRetained : Bool) : Option Watcher :=
  if validFilter mqttTopicFilter then
    some { allowRetained := allowRetained, filter := mqttTopicFilter,
           closed := false, capacity := 10, queued := [] }
  else none

/-- Embedding of `Watcher::is_match`: a retained delivery is refused
when retained messages are not allowed; otherwise the topic is matched
against the filter. -/
def Watcher.is_match (w : Watcher) (topic : String) (retained : Bool) : Bool :=
  if retained && !w.allowRetained then false
  else matchesStr topic w.filter

/-- Outcome of a non-blocking channel send. -/
inductive SendOutcome where
  | sent
  | full
  | closedErr
deriving DecidableEq

/-- Modelled from the spec: tokio's `try_send` on the bounded sink —
the no-receiver error when the receiving end is gone, the full error
when the buffer already holds `capacity` messages, otherwise the message
is enqueued. -/
def Watcher.trySend (w : Watcher) (msg : String × String) : SendOutcome × Watcher :=
  if w.closed then (.closedErr, w)
  else if w.capacity ≤ w.queued.length then (.full, w)
  else (.sent, { w with queued := w.queued ++ [msg] })

/-- One fan-out pass of the event router over the watcher list
(lib.rs: watchers matching the topic receive a `try_send`; a full sink
logs the topic and processing continues; a closed sink panics, so the
remaining watchers are not visited).  Returns the updated watchers, the
topics logged for full sinks, and whether the router panicked. -/
def fanout (topic payload : String) (retain : Bool) :
    List Watcher → List Watcher × List String × Bool
  | [] => ([], [], false)
  | w :: ws =>
    if w.is_match topic retain then
      match w.trySend (topic, payload) with
      | (.closedErr, w') => (w' :: ws, [], true)
      | (.full, w') =>
        let r := fanout topic payload retain ws
        (w' :: r.1, topic :: r.2.1, r.2.2)
      | (.sent, w') =>
        let r := fanout topic payload retain ws
        (w' :: r.1, r.2.1, r.2.2)
    else
      let r := fanout topic payload retain ws
      (w :: r.1, r.2.1, r.2.2)

/-! ## UTF-8 decoding -/

/-- State of the byte-by-byte UTF-8 decoder: number of continuation
bytes still expected, the accumulated code point, the minimum code point
for the current sequence length (overlong rejection), and the decoded
characters in reverse order. -/
structure Utf8State where
  pending : Nat
  acc : Nat
  minCp : Nat
  revChars : List Char
deriving DecidableEq

/-- Modelled from the spec: one step of strict UTF-8 decoding as
performed by `String::from_utf8` — continuation bytes must follow a
matching leader, overlong encodings, surrogates and code points above
0x10FFFF are rejected. -/
def utf8Step (st : Utf8State) (b : Nat) : Option Utf8State :=
  if st.pending = 0 then
    if b < 0x80 then some ⟨0, 0, 0, Char.ofNat b :: st.revChars⟩
    else if b < 0xC2 then none
    else if b < 0xE0 then some ⟨1, b - 0xC0, 0x80, st.revChars⟩
    else if b < 0xF0 then some ⟨2, b - 0xE0, 0x800, st.revChars⟩
    else if b < 0xF5 then some ⟨3, b - 0xF0, 0x10000, st.revChars⟩
    else none
  else
    if 0x80 ≤ b ∧ b < 0xC0 then
      let acc := st.acc * 64 + (b - 0x80)
      if st.pending = 1 then
        if st.minCp ≤ acc ∧ acc ≤ 0x10FFFF ∧ ¬(0xD800 ≤ acc ∧ acc ≤ 0xDFFF) then
          some ⟨0, 0, 0, Char.ofNat acc :: st.revChars⟩
        else none
      else some ⟨st.pending - 1, acc, st.minCp, st.revChars⟩
    else none

/-- Modelled from the spec: `String::from_utf8` over the payload bytes —
`none` exactly when the bytes are not valid UTF-8. -/
def from_utf8 (bytes : List Nat) : Option String :=
  (bytes.foldlM utf8Step ⟨0, 0, 0, []⟩).bind fun st =>
    if st.pending = 0 then some (String.mk st.revChars.reverse) else none

/-! ## Event router -/

/-- Mutable state touched by the event loop: the connection-liveness
timestamp, the history store, and the watcher registry. -/
structure RouterState where
  lastReceived : Option Nat
  history : List (String × HistoryEntry)
  watchers : List Watcher
deriving DecidableEq

/-- Read-only configuration of the event loop: the shared subscription
set and the status-topic settings fixed at connect time. -/
structure Config where
  subscriptions : Subscriptions
  lastWillTopic : String
  lastWillRetain : Bool

/-- Broker-facing effects of one event-loop iteration: broker subscribe
calls issued, publishes issued (topic, payload, retain), topics logged
for full sinks, and whether the iteration panicked. -/
structure StepEffects where
  subscribeCalls : Finset String
  publishCalls : List (String × String × Bool)
  fullLogs : List String
  panicked : Bool
deriving DecidableEq

/-- Effects of an iteration that only logs or sleeps. -/
def noEffects : StepEffects := ⟨∅, [], [], false⟩

/-- Events consumed from the broker client's event stream. -/
inductive Event where
  | connAck (sessionPresent : Bool)
  | publishMsg (topic : String) (payloadBytes : List Nat) (retain : Bool) (dup : Bool)
  | outgoingDisconnect
  | otherEvent
  | connError

/-- Embedding of one iteration of `handle_eventloop` (lib.rs).  On a
connection acknowledgement the spawned task subscribes to every filter
in the current snapshot — the packet's session flag is printed but never
consulted — and publishes the liveness payload `2` to the status topic
with the configured retain flag.  On a non-duplicate publish whose bytes
decode as UTF-8, the liveness timestamp and the history are updated and
the message is fanned out to the watchers.  Duplicate deliveries,
undecodable payloads, disconnects, other events and connection errors
leave the state untouched. -/
def routerStep (cfg : Config) (st : RouterState) (now : Nat) : Event → RouterState × StepEffects
  | .connAck _ =>
    (st, { subscribeCalls := cfg.subscriptions.filters,
           publishCalls := [(cfg.lastWillTopic, "2", cfg.lastWillRetain)],
           fullLogs := [], panicked := false })
  | .publishMsg topic payloadBytes retain dup =>
    if dup then (st, noEffects)
    else
      match from_utf8 payloadBytes with
      | none => (st, noEffects)
      | some payload =>
        let r := fanout topic payload retain st.watchers
        ({ lastReceived := some now,
           history := histUpsert st.history topic ⟨now, payload⟩,
           watchers := r.1 },
         { subscribeCalls := ∅, publishCalls := [], fullLogs := r.2.1, panicked := r.2.2 })
  | .outgoingDisconnect => (st, noEffects)
  | .otherEvent => (st, noEffects)
  | .connError => (st, noEffects)

/-! ## Facade subscribe operations -/

/-- Modelled from the spec: the broker client validates the filter on a
subscribe command and fails the command on an invalid filter. -/
def clientAcceptsFilter (f : String) : Bool := validFilter f

/-- Result of the facade subscribe: whether the expect on the broker
call panicked, and the subscription set afterwards (the set is shared
state and keeps any mutation made before the panic). -/
structure SubscribeResult where
  panicked : Bool
  subs : Subscriptions
deriving DecidableEq

/-- Embedding of `MqttSmarthome::subscribe`: the filter is added to the
subscription set first; only when it is newly effective is the
broker-level subscribe issued, whose failure (here: an invalid filter)
panics via the expect. -/
def facadeSubscribe (subs : Subscriptions) (f : String) : SubscribeResult :=
  let r := subs.add f
  if r.1 then
    if clientAcceptsFilter f then ⟨false, r.2⟩ else ⟨true, r.2⟩
  else ⟨false, r.2⟩

/-- Embedding of `MqttSmarthome::subscribe_channel`: create the watcher
— an invalid filter panics here, before the registry is touched —
then append it to the registry and subscribe. -/
def subscribeChannel (watchers : List Watcher) (subs : Subscriptions) (f : String)
    (allowRetained : Bool) : Option (List Watcher × SubscribeResult) :=
  (Watcher.new f allowRetained).map fun w => (watchers ++ [w], facadeSubscribe subs f)

/-! ## Fan-out lemmas -/

/-- Effect of one fan-out pass on a single watcher when no sink panics:
a matching watcher with a live receiver and spare capacity gets the
message appended; every other watcher is untouched. -/
def deliverOne (topic payload : String) (retain : Bool) (w : Watcher) : Watcher :=
  if w.is_match topic retain && !w.closed && decide (w.queued.length < w.capacity) then
    { w with queued := w.queued ++ [(topic, payload)] }
  else w

theorem fanout_no_closed (topic payload : String) (retain : Bool) :
    ∀ ws : List Watcher, (∀ w ∈ ws, w.is_match topic retain = true → w.closed = false) →
    fanout topic payload retain ws =
      (ws.map (deliverOne topic payload retain),
       (ws.filter fun w =>
         w.is_match topic retain && decide (w.capacity ≤ w.queued.length)).map fun _ => topic,
       false) := by
  intro ws
  induction ws with
  | nil => intro _; rfl
  | cons w rest ih =>
    intro h
    have hw := h w (List.mem_cons_self w rest)
    have hrest := ih fun x hx => h x (List.mem_cons_of_mem w hx)
    by_cases hm : w.is_match topic retain = true
    · have hcl : w.closed = false := hw hm
      by_cases hful : w.capacity ≤ w.queued.length
      · have hnot : ¬w.queued.length < w.capacity := by omega
        simp [fanout, hm, Watcher.trySend, hcl, hful, hrest, deliverOne, hnot]
      · have hlt : w.queued.length < w.capacity := by omega
        simp [fanout, hm, Watcher.trySend, hcl, hful, hrest, deliverOne, hlt]
    · have hm' : w.is_match topic retain = false := Bool.eq_false_iff.mpr hm
      simp [fanout, hm', hrest, deliverOne]

theorem fanout_panic_iff (topic payload : String) (retain : Bool) :
    ∀ ws : List Watcher,
    (fanout topic payload retain ws).2.2 = true ↔
      ∃ w ∈ ws, w.is_match topic retain = true ∧ w.closed = true := by
  intro ws
  induction ws with
  | nil => simp [fanout]
  | cons w rest ih =>
    by_cases hm : w.is_match topic retain = true
    · by_cases hcl : w.closed = true
      · simp only [fanout, hm, if_true, Watcher.trySend, hcl]
        constructor
        · intro _
          exact ⟨w, List.mem_cons_self w rest, hm, hcl⟩
        · intro _
          trivial
      · have hcl' : w.closed = false := Bool.eq_false_iff.mpr hcl
        by_cases hful : w.capacity ≤ w.queued.length
        · simp only [fanout, hm, if_true, Watcher.trySend, hcl', hful, Bool.false_eq_true,
            if_false, if_true]
          rw [ih]
          constructor
          · rintro ⟨x, hx, hxm, hxc⟩
            exact ⟨x, List.mem_cons_of_mem w hx, hxm, hxc⟩
          · rintro ⟨x, hx, hxm, hxc⟩
            rcases List.mem_cons.mp hx with rfl | hx'
            · exact absurd hxc hcl
            · exact ⟨x, hx', hxm, hxc⟩
        · simp only [fanout, hm, if_true, Watcher.trySend, hcl', hful, Bool.false_eq_true,
            if_false]
          rw [ih]
          constructor
          · rintro ⟨x, hx, hxm, hxc⟩
            exact ⟨x, List.mem_cons_of_mem w hx, hxm, hxc⟩
          · rintro ⟨x, hx, hxm, hxc⟩
            rcases List.mem_cons.mp hx with rfl | hx'
            · exact absurd hxc hcl
            · exact ⟨x, hx', hxm, hxc⟩
    · have hm' : w.is_match topic retain = false := Bool.eq_false_iff.mpr hm
      simp only [fanout, hm', Bool.false_eq_true, if_false]
      rw [ih]
      constructor
      · rintro ⟨x, hx, hxm, hxc⟩
        exact ⟨x, List.mem_cons_of_mem w hx, hxm, hxc⟩
      · rintro ⟨x, hx, hxm, hxc⟩
        rcases List.mem_cons.mp hx with rfl | hx'
        · exact absurd hxm hm
        · exact ⟨x, hx', hxm, hxc⟩

/-! ## Claim C7 -/

/-- C7: during fan-out of one accepted message, full sinks only drop the
message for their own watcher — the history upsert happens, every other
matching watcher with spare capacity still receives the message, the
full sinks' topics are logged have, and no panic occurs — whereas the
router panics exactly when some matching watcher's sink has no live
receiver, and the history upsert happens regardless. -/
theorem c7_sink_policy (cfg : Config) (st : RouterState) (now : Nat)
    (topic payload : String) (bytes : List Nat) (retain : Bool)
    (hdec : from_utf8 bytes = some payload) :
    ((∀ w ∈ st.watchers, w.is_match topic retain = true → w.closed = false) →
      routerStep cfg st now (.publishMsg topic bytes retain false) =
        ({ lastReceived := some now,
           history := histUpsert st.history topic ⟨now, payload⟩,
           watchers := st.watchers.map (deliverOne topic payload retain) },
         { subscribeCalls := ∅, publishCalls := [],
           fullLogs := (st.watchers.filter fun w =>
             w.is_match topic retain && decide (w.capacity ≤ w.queued.length)).map fun _ => topic,
           panicked := false })) ∧
    ((routerStep cfg st now (.publishMsg topic bytes retain false)).2.panicked = true ↔
      ∃ w ∈ st.watchers, w.is_match topic retain = true ∧ w.closed = true) ∧
    ((routerStep cfg st now (.publishMsg topic bytes retain false)).1.history =
      histUpsert st.history topic ⟨now, payload⟩) := by
  refine ⟨?_, ?_, ?_⟩
  · intro h
    simp only [routerStep, Bool.false_eq_true, if_false, hdec]
    rw [fanout_no_closed topic payload retain st.watchers h]
  · simp only [routerStep, Bool.false_eq_true, if_false, hdec]
    exact fanout_panic_iff topic payload retain st.watchers
  · simp only [routerStep, Bool.false_eq_true, if_false, hdec]

/-- C7 witness: with one matching watcher whose sink is full (capacity
zero) and one with space, the message is dropped only for the former,
history is updated, the topic is logged once and no panic occurs; with a
matching watcher whose receiver is gone, the router panics. -/
theorem c7_sink_policy_witness :
    routerStep ⟨Subscriptions.new, "base/connected", false⟩
        ⟨none, [], [⟨true, "#", false, 0, []⟩, ⟨true, "#", false, 10, []⟩]⟩ 1
        (.publishMsg "t" [52, 50] false false) =
      ({ lastReceived := some 1,
         history := histUpsert [] "t" ⟨1, "42"⟩,
         watchers := [⟨true, "#", false, 0, []⟩,
           ⟨true, "#", false, 10, [("t", "42")]⟩] },
       { subscribeCalls := ∅, publishCalls := [], fullLogs := ["t"], panicked := false }) ∧
    (routerStep ⟨Subscriptions.new, "base/connected", false⟩
        ⟨none, [], [⟨true, "#", true, 10, []⟩]⟩ 1
        (.publishMsg "t" [52, 50] false false)).2.panicked = true := by
  constructor
  · have h := (c7_sink_policy ⟨Subscriptions.new, "base/connected", false⟩
      ⟨none, [], [⟨true, "#", false, 0, []⟩, ⟨true, "#", false, 10, []⟩]⟩ 1
      "t" "42" [52, 50] false (by decide)).1 (by decide)
    rw [h]
    decide
  · exact ((c7_sink_policy ⟨Subscriptions.new, "base/connected", false⟩
      ⟨none, [], [⟨true, "#", true, 10, []⟩]⟩ 1
      "t" "42" [52, 50] false (by decide)).2.1).mpr
      ⟨⟨true, "#", true, 10, []⟩, by decide, by decide, rfl⟩

/-! ## Claim C8 -/

theorem forall2_keep_refl :
    ∀ ws : List Watcher,
      List.Forall₂ (fun a b : Watcher => a.allowRetained = false → b = a) ws ws := by
  intro ws
  induction ws with
  | nil => exact List.Forall₂.nil
  | cons w rest ih => exact List.Forall₂.cons (fun _ => rfl) ih

/-- On a retained fan-out, the sink of every watcher registered with
`allow_retained = false` is left exactly as it was. -/
theorem fanout_retained_untouched (topic payload : String) :
    ∀ ws : List Watcher,
      List.Forall₂ (fun a b : Watcher => a.allowRetained = false → b = a)
        ws (fanout topic payload true ws).1 := by
  intro ws
  induction ws with
  | nil => exact List.Forall₂.nil
  | cons w rest ih =>
    have hhead : w.allowRetained = false → w.is_match topic true = false := by
      intro har
      simp [Watcher.is_match, har]
    by_cases hm : w.is_match topic true = true
    · have hkeep : w.allowRetained = false → ∀ b : Watcher, b = w := by
        intro har
        rw [hhead har] at hm
        exact absurd hm (by simp)
      by_cases hcl : w.closed = true
      · simp only [fanout, hm, if_true, Watcher.trySend, hcl]
        exact List.Forall₂.cons (fun har => hkeep har _) (forall2_keep_refl rest)
      · have hcl' : w.closed = false := Bool.eq_false_iff.mpr hcl
        by_cases hful : w.capacity ≤ w.queued.length
        · simp only [fanout, hm, if_true, Watcher.trySend, hcl', hful, Bool.false_eq_true,
            if_false, if_true]
          exact List.Forall₂.cons (fun _ => rfl) ih
        · simp only [fanout, hm, if_true, Watcher.trySend, hcl', hful, Bool.false_eq_true,
            if_false]
          exact List.Forall₂.cons (fun har => hkeep har _) ih
    · have hm' : w.is_match topic true = false := Bool.eq_false_iff.mpr hm
      simp only [fanout, hm', Bool.false_eq_true, if_false]
      exact List.Forall₂.cons (fun _ => rfl) ih

/-- C8: retained-message policy per watcher — a watcher registered with
`allow_retained = false` never matches a retained delivery, so the
retained fan-out leaves its sink untouched, while it matches a
non-retained delivery whenever the topic matches its filter (and, with a
live receiver and spare capacity, the message is then enqueued); a
watcher with `allow_retained = true` matches retained and non-retained
deliveries alike. -/
theorem c8_retained_policy (w : Watcher) (topic : String) :
    (w.allowRetained = false → w.is_match topic true = false) ∧
    (w.allowRetained = false → w.is_match topic false = matchesStr topic w.filter) ∧
    (w.allowRetained = true → ∀ retained : Bool,
      w.is_match topic retained = matchesStr topic w.filter) ∧
    (∀ payload, ∀ ws : List Watcher,
      List.Forall₂ (fun a b : Watcher => a.allowRetained = false → b = a)
        ws (fanout topic payload true ws).1) ∧
    (∀ payload, w.is_match topic false = true → w.closed = false →
      w.queued.length < w.capacity →
      (fanout topic payload false [w]).1 =
        [{ w with queued := w.queued ++ [(topic, payload)] }]) := by
  refine ⟨?_, ?_, ?_, ?_, ?_⟩
  · intro har
    simp [Watcher.is_match, har]
  · intro har
    simp [Watcher.is_match, har]
  · intro har retained
    simp [Watcher.is_match, har]
  · intro payload ws
    exact fanout_retained_untouched topic payload ws
  · intro payload hm hcl hsp
    have hful : ¬w.capacity ≤ w.queued.length := by omega
    simp [fanout, hm, Watcher.trySend, hcl, hful]

/-- C8 witness: a concrete watcher on filter `#` with
`allow_retained = false` refuses the retained delivery of topic
`foo/bar`, accepts the non-retained one, and a retained fan-out leaves
its empty sink unchanged; the `allow_retained = true` twin accepts
both. -/
theorem c8_retained_policy_witness :
    (Watcher.mk false "#" false 10 []).is_match "foo/bar" true = false ∧
    (Watcher.mk false "#" false 10 []).is_match "foo/bar" false = true ∧
    (Watcher.mk true "#" false 10 []).is_match "foo/bar" true = true ∧
    (Watcher.mk true "#" false 10 []).is_match "foo/bar" false = true ∧
    (fanout "foo/bar" "42" false [⟨false, "#", false, 10, []⟩]).1 =
      [⟨false, "#", false, 10, [("foo/bar", "42")]⟩] := by
  refine ⟨(c8_retained_policy ⟨false, "#", false, 10, []⟩ "foo/bar").1 rfl, ?_, ?_, ?_, ?_⟩
  · rw [(c8_retained_policy ⟨false, "#", false, 10, []⟩ "foo/bar").2.1 rfl]
    decide
  · rw [(c8_retained_policy ⟨true, "#", false, 10, []⟩ "foo/bar").2.2.1 rfl true]
    decide
  · rw [(c8_retained_policy ⟨true, "#", false, 10, []⟩ "foo/bar").2.2.1 rfl false]
    decide
  · exact (c8_retained_policy ⟨false, "#", false, 10, []⟩ "foo/bar").2.2.2.2 "42"
      (by decide) rfl (by decide)

/-! ## Claim C9 -/

/-- C9: an inbound message whose payload bytes are not valid UTF-8 is
discarded entirely — the router step leaves the liveness timestamp, the
history store and every watcher sink unchanged and produces no broker
call, no log and no panic. -/
theorem c9_invalid_utf8_discard (cfg : Config) (st : RouterState) (now : Nat)
    (topic : String) (bytes : List Nat) (retain : Bool)
    (h : from_utf8 bytes = none) :
    routerStep cfg st now (.publishMsg topic bytes retain false) = (st, noEffects) := by
  simp [routerStep, h]

/-- C9 witness: the single byte 255 is not valid UTF-8 and the router
step on it returns the state unchanged with no effects. -/
theorem c9_invalid_utf8_discard_witness :
    routerStep ⟨Subscriptions.new, "base/connected", true⟩
        ⟨some 4, [("t", ⟨0, "x"⟩)], [⟨true, "#", false, 10, []⟩]⟩ 9
        (.publishMsg "t" [255] false false) =
      (⟨some 4, [("t", ⟨0, "x"⟩)], [⟨true, "#", false, 10, []⟩]⟩, noEffects) :=
  c9_invalid_utf8_discard ⟨Subscriptions.new, "base/connected", true⟩
    ⟨some 4, [("t", ⟨0, "x"⟩)], [⟨true, "#", false, 10, []⟩]⟩ 9 "t" [255] false (by decide)

/-! ## Claim C4 -/

/-- C4 counterexample: on a connection acknowledgement whose session-
resumed flag is true, the router still issues a broker subscribe for
every filter in the snapshot — the claim requires no replay in that
case. -/
theorem c4_connack_counterexample :
    (routerStep ⟨Subscriptions.addList ["foo/bar"], "base/connected", false⟩
        ⟨none, [], []⟩ 0 (.connAck true)).2.subscribeCalls = {"foo/bar"} ∧
    (routerStep ⟨Subscriptions.addList ["foo/bar"], "base/connected", false⟩
        ⟨none, [], []⟩ 0 (.connAck true)).2.subscribeCalls ≠ ∅ := by
  refine ⟨by decide, by decide⟩

/-- C4 (amended): on every connection acknowledgement the router behaves
identically for both values of the session-resumed flag — the flag is
printed but never consulted — replaying a broker subscribe for every
filter in the snapshot and publishing the liveness payload `2` to the
status topic with the configured retain flag, leaving the state
untouched. -/
theorem c4_connack_amended (cfg : Config) (st : RouterState) (now : Nat) (sr : Bool) :
    routerStep cfg st now (.connAck sr) = routerStep cfg st now (.connAck (!sr)) ∧
    (routerStep cfg st now (.connAck sr)).2.subscribeCalls = cfg.subscriptions.filters ∧
    (routerStep cfg st now (.connAck sr)).2.publishCalls =
      [(cfg.lastWillTopic, "2", cfg.lastWillRetain)] ∧
    (routerStep cfg st now (.connAck sr)).1 = st ∧
    (routerStep cfg st now (.connAck sr)).2.panicked = false :=
  ⟨rfl, rfl, rfl, rfl, rfl⟩

/-! ## Claim C3 -/

/-- C3 counterexample: the structurally invalid filter `#/whatever` is
passed to subscribe while the set already holds `#`, which syntactically
matches it; the subscribe call then returns without any failure (and
without touching the set), so the invalid filter is silently ignored
instead of failing loudly at the call site. -/
theorem c3_invalid_filter_counterexample :
    validFilter "#/whatever" = false ∧
    facadeSubscribe (Subscriptions.addList ["#"]) "#/whatever" =
      ⟨false, Subscriptions.addList ["#"]⟩ := by
  refine ⟨by decide, by decide⟩

/-- C3 (amended): watch-channel creation always fails loudly on an
invalid filter, before the registry is touched; subscribe fails loudly
only when the invalid filter is not already matched by an existing
subscription under the filter-against-filter check — and by then the
invalid filter has already been inserted into the subscription set —
while an invalid filter that is already matched is silently ignored with
the set unchanged. -/
theorem c3_invalid_filter_amended (subs : Subscriptions) (ws : List Watcher)
    (f : String) (ar : Bool) (hf : validFilter f = false) :
    Watcher.new f ar = none ∧
    subscribeChannel ws subs f ar = none ∧
    ((∀ e ∈ subs.filters, matchesStr f e = false) →
      (facadeSubscribe subs f).panicked = true ∧
      f ∈ (facadeSubscribe subs f).subs.filters) ∧
    ((∃ e ∈ subs.filters, matchesStr f e = true) →
      facadeSubscribe subs f = ⟨false, subs⟩) := by
  refine ⟨?_, ?_, ?_, ?_⟩
  · simp [Watcher.new, hf]
  · simp [subscribeChannel, Watcher.new, hf]
  · intro hall
    have hcov : ¬∃ e ∈ subs.filters, matchesStr f e = true := by
      rintro ⟨e, he, hm⟩
      rw [hall e he] at hm
      exact absurd hm (by simp)
    have hadd := add_of_not_covered hcov
    constructor
    · simp [facadeSubscribe, hadd, clientAcceptsFilter, hf]
    · simp [facadeSubscribe, hadd, clientAcceptsFilter, hf]
  · intro hcov
    simp [facadeSubscribe, add_of_covered hcov]

/-- C3 amended witness: on the empty subscription set, subscribing to
`#/whatever` panics (after inserting it), and creating a watch channel
for it panics with no watcher created. -/
theorem c3_invalid_filter_amended_witness :
    Watcher.new "#/whatever" false = none ∧
    subscribeChannel [] Subscriptions.new "#/whatever" false = none ∧
    (facadeSubscribe Subscriptions.new "#/whatever").panicked = true :=
  ⟨(c3_invalid_filter_amended Subscriptions.new [] "#/whatever" false (by decide)).1,
   (c3_invalid_filter_amended Subscriptions.new [] "#/whatever" false (by decide)).2.1,
   ((c3_invalid_filter_amended Subscriptions.new [] "#/whatever" false (by decide)).2.2.1
     (by decide)).1⟩
